import Mathlib

/-!
Verification of `scripts/ci/package-release.py` (SIDFlow pruned release archiver).

The script walks a source tree with `os.walk`, prunes ignored directories
in-place before descending, skips `.zip`-suffixed files, and writes the
surviving files into a zip archive rooted at `<archive_name>/`, storing
symlinks as symlink entries (content = link target, external attributes
`0o120755 << 16`, create system 3) instead of dereferencing them.

Modelling conventions:
* Strings are `List Char`; a path segment (one component of a POSIX path) is
  also a `List Char`.
* A `PurePosixPath` / POSIX `Path` is modelled by `PPath`: a number of root
  slashes (0 for a relative path; Python keeps `//` distinct from `/`) plus
  the list of components.  The constructor's normalisation (dropping empty
  and `.` components) is `parseP`; `str` / `as_posix` is `renderP`.
* Source-relative directory paths produced by the walk are plain segment
  lists (`List Seg`), always relative; their `as_posix` form is `asPosix`.
* The filesystem is a finite tree `FSDir`: an ordered listing of named
  entries, each a regular file, a symlink (with its target string and
  whether `os.path.isdir` holds for it, i.e. whether it points at a
  directory), or a subdirectory.  Directory entry names come from the OS
  (`os.scandir`), so they are single segments.
* `os.walk(src_root)` (topdown, `followlinks=False`) classifies a child as a
  directory iff `entry.is_dir()` holds — this includes symlinks to
  directories — but only recurses into children that are not symlinks.
  Symlinks to directories therefore appear in neither the recursion nor the
  `files` list.
* Path resolution (`Path.resolve`) is modelled as the identity: paths are
  taken as already absolute and symlink-free; nothing in the claims depends
  on the resolution step itself.
-/

set_option autoImplicit false

namespace SidFlow

/-- A path segment / file name, as a list of characters. -/
abbrev Seg := List Char

/-- Split a character list on `/`, keeping empty pieces (raw `str.split('/')`). -/
def splitSlash : List Char → List Seg
  | [] => [[]]
  | c :: rest =>
    match splitSlash rest with
    | [] => [[]]
    | s :: ss => if c = '/' then [] :: s :: ss else (c :: s) :: ss

/-- Number of leading `/` characters. -/
def leadSlashes : List Char → Nat
  | '/' :: rest => leadSlashes rest + 1
  | _ => 0

/-- A parsed POSIX path: `rootSlashes = 0` for a relative path, `1` for `/`,
`2` for the POSIX-special `//` root; `parts` are the non-empty, non-`.`
components, exactly as `pathlib.PurePosixPath` stores them. -/
structure PPath where
  rootSlashes : Nat
  parts : List Seg
deriving DecidableEq

/-- `pathlib.PurePosixPath(s)`: normalise the root (`//` is kept, three or
more slashes collapse to `/`) and drop empty and `.` components. -/
def parseP (s : List Char) : PPath :=
  let k := leadSlashes s
  { rootSlashes := if k = 2 then 2 else if k = 0 then 0 else 1
    parts := (splitSlash s).filter fun seg => !seg.isEmpty && !(seg = ['.'] : Bool) }

/-- Join segments with `/` separators (no leading or trailing slash). -/
def joinSegs : List Seg → List Char
  | [] => []
  | [s] => s
  | s :: t :: rest => s ++ '/' :: joinSegs (t :: rest)

/-- `str` / `as_posix` of a `PurePosixPath`: `.` for an empty relative path,
otherwise root slashes followed by the joined components. -/
def renderP (p : PPath) : List Char :=
  if p.rootSlashes = 0 then
    if p.parts = [] then ['.'] else joinSegs p.parts
  else List.replicate p.rootSlashes '/' ++ joinSegs p.parts

/-- `PurePosixPath.joinpath`: an absolute right operand replaces the left
path, a relative one appends its components. -/
def joinP (a b : PPath) : PPath :=
  if b.rootSlashes = 0 then ⟨a.rootSlashes, a.parts ++ b.parts⟩ else b

/-- `as_posix` of a source-relative directory path (a segment list): `.` for
the source root itself, otherwise the `/`-joined segments. -/
def asPosix (r : List Seg) : List Char :=
  if r = [] then ['.'] else joinSegs r

/-- `PurePosixPath.name` of a relative segment list: the last segment, or the
empty string for the empty path (Python's `PurePosixPath('.').name == ''`). -/
def pathName (r : List Seg) : Seg :=
  (r.getLast?).getD []

/-- Index of the last `.` in a name, if any (`str.rfind('.')`). -/
def rfindDot : List Char → Option Nat
  | [] => none
  | c :: rest =>
    match rfindDot rest with
    | some i => some (i + 1)
    | none => if c = '.' then some 0 else none

/-- `pathlib.PurePath.suffix` of a file name: the substring from the last
dot, but only when that dot is neither the first nor the last character —
`'.zip'` and `'a.'` both have suffix `''`. -/
def pySuffix (nm : List Char) : List Char :=
  match rfindDot nm with
  | none => []
  | some i => if 0 < i ∧ i < nm.length - 1 then nm.drop i else []

/-- The literal `".zip"` the walk compares suffixes against. -/
def zipSuffix : List Char := ".zip".toList

/-- `IGNORED_DIRS` from the script (a set of directory names; order is
irrelevant, membership is all that is used). -/
def IGNORED_DIRS : List Seg :=
  [".git".toList, ".bun".toList, ".turbo".toList, "workspace".toList,
   "performance".toList, "data".toList, "doc".toList,
   "integration-tests".toList, "test-data".toList, "coverage".toList,
   "tmp".toList, "test-results".toList, "test-workspace".toList]

/-- `IGNORED_PATH_PREFIXES` from the script, stored as the component lists of
the two `PurePosixPath` literals. -/
def IGNORED_PATH_PREFIXES : List (List Seg) :=
  [(parseP "packages/sidflow-web/.next/cache".toList).parts,
   (parseP "node_modules/.cache".toList).parts]

/-- `should_skip_dir(rel_dir)`: true when the directory's own name is in
`IGNORED_DIRS`, or when its `as_posix` string starts with the `as_posix`
string of one of `IGNORED_PATH_PREFIXES` (plain string-prefix comparison). -/
def should_skip_dir (relDir : List Seg) : Bool :=
  if pathName relDir ∈ IGNORED_DIRS then true
  else IGNORED_PATH_PREFIXES.any fun pre => (asPosix pre).isPrefixOf (asPosix relDir)

/-! ### Filesystem model and the walk of `iter_files` -/

/-- A directory listing, in `os.scandir` order: each entry is a regular
file, a symlink (target string plus whether `os.path.isdir` holds for the
link, i.e. whether it points at a directory), or a subdirectory. -/
inductive FSDir where
  | nil : FSDir
  | consFile (name : Seg) (rest : FSDir) : FSDir
  | consSymlink (name : Seg) (target : List Char) (targetIsDir : Bool) (rest : FSDir) : FSDir
  | consDir (name : Seg) (children : FSDir) (rest : FSDir) : FSDir
deriving DecidableEq

/-- What kind of filesystem object a yielded walk entry is (`os.walk` never
yields directories in its `files` list, so no directory case). -/
inductive EKind where
  | file : EKind
  | symlink (target : List Char) (targetIsDir : Bool) : EKind
deriving DecidableEq

/-- One yield of `iter_files`: the source-relative path (the
`rel_root_posix.joinpath(name)` value) together with what sits at the
corresponding absolute path. -/
abbrev Entry := List Seg × EKind

/-- A looked-up directory entry. -/
inductive NodeView where
  | fileN : NodeView
  | symlinkN (target : List Char) (targetIsDir : Bool) : NodeView
  | dirN (children : FSDir) : NodeView
deriving DecidableEq

/-- The names in a directory listing, in order. -/
def childNames : FSDir → List Seg
  | .nil => []
  | .consFile n rest => n :: childNames rest
  | .consSymlink n _ _ rest => n :: childNames rest
  | .consDir n _ rest => n :: childNames rest

/-- Look up the first entry with the given name. -/
def findNode : FSDir → Seg → Option NodeView
  | .nil, _ => none
  | .consFile n rest, m => if n = m then some .fileN else findNode rest m
  | .consSymlink n t b rest, m => if n = m then some (.symlinkN t b) else findNode rest m
  | .consDir n c rest, m => if n = m then some (.dirN c) else findNode rest m

/-- Follow a segment path through subdirectory entries. -/
def dirAt : FSDir → List Seg → Option FSDir
  | d, [] => some d
  | d, n :: rest =>
    match findNode d n with
    | some (.dirN c) => dirAt c rest
    | _ => none

/-- Real directories have no duplicate entry names; this checks it at every
level of the tree (the well-formedness used by the uniqueness claims). -/
def wfSub : FSDir → Bool
  | .nil => true
  | .consFile _ rest => wfSub rest
  | .consSymlink _ _ _ rest => wfSub rest
  | .consDir _ c rest => (decide (childNames c).Nodup && wfSub c) && wfSub rest

/-- Deep well-formedness of a source tree: distinct sibling names at the root
listing and at every subdirectory. -/
def wfDir (d : FSDir) : Bool :=
  decide (childNames d).Nodup && wfSub d

/-- The `for name in files:` loop of `iter_files` for one visited directory
with relative path `r`: `files` is the list of children `os.walk` classifies
as non-directories (regular files and symlinks whose target is not a
directory), and a file whose `rel_file.suffix` equals `".zip"` is skipped. -/
def eligFiles : List Seg → FSDir → List Entry
  | _, .nil => []
  | r, .consFile n rest =>
    (if pySuffix n = zipSuffix then [] else [(r ++ [n], EKind.file)]) ++ eligFiles r rest
  | r, .consSymlink n t b rest =>
    (if b then []
     else if pySuffix n = zipSuffix then [] else [(r ++ [n], EKind.symlink t b)])
    ++ eligFiles r rest
  | r, .consDir _ _ rest => eligFiles r rest

/-- The recursive part of the walk below a directory with relative path `r`:
`dirs[:] = [d for d in dirs if not should_skip_dir(rel.joinpath(d))]` prunes
every child `os.walk` classifies as a directory before descending (symlinks
to directories are pruned too, but `os.walk(followlinks=False)` never
recurses into them nor lists them in `files`, so they contribute nothing
either way).  For a kept subdirectory the walk yields its tuple: the inner
`should_skip_dir` test is line 71 of the script re-evaluated at that
directory (always false here, since pruning already passed), then its files,
then its own children. -/
def visitChildren : List Seg → FSDir → List Entry
  | _, .nil => []
  | r, .consFile _ rest => visitChildren r rest
  | r, .consSymlink _ _ _ rest => visitChildren r rest
  | r, .consDir n c rest =>
    (if should_skip_dir (r ++ [n]) then []
     else (if should_skip_dir (r ++ [n]) then [] else eligFiles (r ++ [n]) c)
       ++ visitChildren (r ++ [n]) c)
    ++ visitChildren r rest

/-- One `os.walk` tuple and everything below it: line 71's
`if should_skip_dir(rel_root_posix): continue` guards the files of the
current directory, then the walk descends into the pruned children. -/
def visit (r : List Seg) (d : FSDir) : List Entry :=
  (if should_skip_dir r then [] else eligFiles r d) ++ visitChildren r d

/-- The relative paths of the directories the walk recursed into (the
directories whose listing is actually read), below a directory at `r`. -/
def visitedChildren : List Seg → FSDir → List (List Seg)
  | _, .nil => []
  | r, .consFile _ rest => visitedChildren r rest
  | r, .consSymlink _ _ _ rest => visitedChildren r rest
  | r, .consDir n c rest =>
    (if should_skip_dir (r ++ [n]) then []
     else (r ++ [n]) :: visitedChildren (r ++ [n]) c)
    ++ visitedChildren r rest

/-- All directories visited by `os.walk(src_root)`: the root itself plus the
non-pruned subdirectories. -/
def visitedDirs (d : FSDir) : List (List Seg) :=
  [] :: visitedChildren [] d

/-- `iter_files(src_root)`.  `srcRoot` is the absolute path of the source
root; `pathlib.Path(root).relative_to(src_root)` strips it from every walked
path, so the walk only ever sees source-relative paths and the root itself is
tested as `PurePosixPath('.')` — the root's own name (its last component)
never reaches `should_skip_dir`.  The parameter is therefore unused by the
body, exactly as in the script. -/
def iter_files (_srcRoot : PPath) (d : FSDir) : List Entry :=
  visit [] d

/-! ### Zip writing (`add_file_to_zip`, `package_release`) -/

/-- One entry of the produced zip file.  For a symlink the script builds a
`ZipInfo` with `create_system` and `external_attr` and stores the link target
string as the entry's content; for a regular file it deflates the file's
bytes (the bytes themselves play no role in any claim). -/
inductive ZipEntry where
  | symlinkEntry (arcPath : List Char) (content : List Char) (createSystem : Nat) (externalAttr : Nat)
  | fileEntry (arcPath : List Char) (compressType : Nat)
deriving DecidableEq

/-- `zipfile.ZIP_DEFLATED`. -/
def ZIP_DEFLATED : Nat := 8

/-- `add_file_to_zip(zipf, abs_path, arc_path)`: a symlink is written as a
symlink-mode entry (`create_system = 3`, `external_attr = 0o120755 << 16`)
whose content is `os.readlink(abs_path)`; anything else is written with
deflate compression. -/
def add_file_to_zip (k : EKind) (arcPath : List Char) : ZipEntry :=
  match k with
  | .symlink t _ => .symlinkEntry arcPath t 3 (0o120755 <<< 16)
  | .file => .fileEntry arcPath ZIP_DEFLATED

/-- `str(PurePosixPath(archive_name).joinpath(rel_posix))`: the internal path
of the archive entry for the file at source-relative path `rel`. -/
def arcPathOfEntry (archiveName : List Char) (rel : List Seg) : List Char :=
  renderP (joinP (parseP archiveName) ⟨0, rel⟩)

/-- The entries written by the `with zipfile.ZipFile(...)` loop of
`package_release`, in order. -/
def packageEntries (archiveName : List Char) (d : FSDir) : List ZipEntry :=
  (visit [] d).map fun e => add_file_to_zip e.2 (arcPathOfEntry archiveName e.1)

/-! ### CLI entry point (`package_release` validation and `main`) -/

/-- What the filesystem holds at the (resolved) source path: nothing, a
non-directory object, or a directory tree. -/
inductive SrcState where
  | missing : SrcState
  | notDir : SrcState
  | isDir (d : FSDir) : SrcState
deriving DecidableEq

/-- `package_release(src_dir, archive_name, zip_path)` as a result value:
the two validation errors raise with the messages of lines 84 and 86, and
`writeErr` stands for an arbitrary exception raised by the filesystem or the
zip library during the writing phase (`none` when writing succeeds). -/
def package_release (fs : SrcState) (src : PPath) (archiveName : List Char)
    (writeErr : Option (List Char)) : Except (List Char) (List ZipEntry) :=
  match fs with
  | .missing => .error ("Source directory not found: ".toList ++ renderP src)
  | .notDir => .error ("Source path is not a directory: ".toList ++ renderP src)
  | .isDir d =>
    match writeErr with
    | some m => .error m
    | none => .ok (packageEntries archiveName d)

/-- `archive_name = args.archive_name or "sidflow-release"` (an empty
argparse value falls back to the default). -/
def effArchive (archiveArg : List Char) : List Char :=
  if archiveArg = [] then "sidflow-release".toList else archiveArg

/-- `zip_path = args.zip_path or src_dir.joinpath(f"{archive_name}.zip")`. -/
def resolvedZip (srcDir : PPath) (archiveName : List Char)
    (zipArg : Option (List Char)) : PPath :=
  match zipArg with
  | some z => parseP z
  | none => joinP srcDir (parseP (archiveName ++ ".zip".toList))

/-- The observable outcome of one run of `main`: exit code, stdout lines,
stderr lines. -/
structure CLIResult where
  exitCode : Nat
  stdoutLines : List (List Char)
  stderrLines : List (List Char)
deriving DecidableEq

/-- `main(argv)`: a missing `--src-dir`/`SRC_DIR` raises
`ValueError("SRC_DIR (--src-dir) is required")` inside the `try`; otherwise
the source is validated and packaged, the success line goes to stdout with
exit code 0, and every exception is caught by the single
`except Exception as exc` handler, printing `Error: {exc}` to stderr and
returning 1. -/
def mainRun (srcArg : Option (List Char)) (archiveArg : List Char)
    (zipArg : Option (List Char)) (fs : SrcState)
    (writeErr : Option (List Char)) : CLIResult :=
  match srcArg with
  | none => ⟨1, [], ["Error: SRC_DIR (--src-dir) is required".toList]⟩
  | some s =>
    let srcDir := parseP s
    let an := effArchive archiveArg
    let zipPath := resolvedZip srcDir an zipArg
    match package_release fs srcDir an writeErr with
    | .ok _ => ⟨0, ["Successfully packaged release to ".toList ++ renderP zipPath], []⟩
    | .error m => ⟨1, [], ["Error: ".toList ++ m]⟩

/-! ### Auxiliary definitions used only to state and prove the theorems -/

/-- Whether a directory entry is eligible to be yielded by `iter_files` as a
file of its directory: a regular file or a non-directory symlink whose name's
suffix is not `".zip"`. -/
def eligNode : Seg → NodeView → Bool
  | n, .fileN => !decide (pySuffix n = zipSuffix)
  | n, .symlinkN _ b => !b && !decide (pySuffix n = zipSuffix)
  | _, .dirN _ => false

/-- The entry kind a directory entry would be yielded as (`.file` is a junk
value for subdirectories, which are never yielded). -/
def viewEK : NodeView → EKind
  | .fileN => .file
  | .symlinkN t b => .symlink t b
  | .dirN _ => .file

/-- Right-hand side of the counting lemmas: how many walk entries the child
`fname` of a directory contributes at its own relative path. -/
def countRhs (o : Option NodeView) (fname : Seg) (q : EKind → Bool) : Nat :=
  match o with
  | some v => if eligNode fname v && q (viewEK v) then 1 else 0
  | none => 0

/-- The predicate counted by the uniqueness lemmas: an entry at the given
source-relative path whose kind satisfies `q`. -/
def entryPred (target : List Seg) (q : EKind → Bool) : Entry → Bool :=
  fun e => decide (e.1 = target) && q e.2

/-- Whether `os.walk` lists a directory entry in `files`: a regular file or
a symlink that does not point at a directory. -/
def isFileLike : NodeView → Bool
  | .fileN => true
  | .symlinkN _ b => !b
  | .dirN _ => false

/-! ### Model validation on concrete inputs

These mirror concrete behaviours of `pathlib`, `os.walk` and the script
itself, checked against a CPython interpreter. -/

example : parseP "".toList = ⟨0, []⟩ := by decide
example : renderP (parseP "".toList) = ".".toList := by decide
example : renderP (parseP "a//b/./c".toList) = "a/b/c".toList := by decide
example : renderP (parseP "//x".toList) = "//x".toList := by decide
example : renderP (parseP "///x".toList) = "/x".toList := by decide
example : pySuffix "a.zip".toList = ".zip".toList := by decide
example : pySuffix ".zip".toList = [] := by decide
example : pySuffix "a.".toList = [] := by decide
example : pySuffix "x.ZIP".toList = ".ZIP".toList := by decide
example : should_skip_dir [".git".toList] = true := by decide
example : should_skip_dir [] = false := by decide
example : should_skip_dir ["node_modules".toList] = false := by decide
example : should_skip_dir ["node_modules".toList, ".cache".toList] = true := by decide
example : should_skip_dir ["node_modules".toList, ".cache-extra".toList] = true := by decide
example : should_skip_dir ["src".toList, "tmp".toList] = true := by decide

example :
    visit [] (FSDir.consDir ".git".toList (FSDir.consFile "x".toList .nil)
      (FSDir.consFile "a.txt".toList .nil))
    = [(["a.txt".toList], EKind.file)] := by decide

example :
    visit [] (FSDir.consSymlink "link".toList "tgt".toList true .nil) = [] := by decide

example :
    packageEntries "rel".toList
      (FSDir.consSymlink "ln".toList "target.txt".toList false
        (FSDir.consFile "a.zip".toList (FSDir.consFile "b.txt".toList .nil)))
    = [ZipEntry.symlinkEntry "rel/ln".toList "target.txt".toList 3 (0o120755 <<< 16),
       ZipEntry.fileEntry "rel/b.txt".toList 8] := by decide

example :
    mainRun none [] none .missing none
    = ⟨1, [], ["Error: SRC_DIR (--src-dir) is required".toList]⟩ := by decide

example :
    mainRun (some "/src".toList) [] none (.isDir .nil) none
    = ⟨0, ["Successfully packaged release to /src/sidflow-release.zip".toList], []⟩ := by
  decide

/-! ### Helper lemmas -/

theorem shouldSkip_nil : should_skip_dir [] = false := by decide

theorem isPrefixOf_iff_pfx (l1 l2 : List Char) : l1.isPrefixOf l2 = true ↔ l1 <+: l2 :=
  List.isPrefixOf_iff_prefix

theorem skip_ne_nil {p : List Seg} (h : should_skip_dir p = true) : p ≠ [] := by
  intro hn
  subst hn
  rw [shouldSkip_nil] at h
  exact Bool.false_ne_true h

theorem pfx_snoc {α : Type} {p l : List α} {a : α} (h : p <+: l ++ [a]) :
    p <+: l ∨ p = l ++ [a] := by
  obtain ⟨t, ht⟩ := h
  rcases List.eq_nil_or_concat t with rfl | ⟨t', b, rfl⟩
  · right
    simpa using ht
  · left
    rw [List.concat_eq_append, ← List.append_assoc] at ht
    have := List.append_inj' ht rfl
    exact ⟨t', this.1⟩

theorem pfx_cons {α : Type} {q r : List α} (c : α) (h : q <+: r) :
    (c :: q) <+: (c :: r) := by
  obtain ⟨t, ht⟩ := h
  exact ⟨t, by simp [ht]⟩

theorem pfx_of_nil {α : Type} {q : List α} (h : q <+: ([] : List α)) : q = [] := by
  obtain ⟨t, ht⟩ := h
  exact (List.append_eq_nil.mp ht).1

theorem eligFiles_shape (d : FSDir) :
    ∀ (r : List Seg) (e : Entry), e ∈ eligFiles r d →
      ∃ n, n ∈ childNames d ∧ e.1 = r ++ [n] := by
  induction d with
  | nil => intro r e h; simp [eligFiles] at h
  | consFile n rest ih =>
    intro r e h
    rw [eligFiles] at h
    rcases List.mem_append.mp h with h | h
    · split at h
      · simp at h
      · simp at h
        exact ⟨n, by simp [childNames], by rw [h]⟩
    · obtain ⟨m, hm, he⟩ := ih r e h
      exact ⟨m, by simp [childNames, hm], he⟩
  | consSymlink n t b rest ih =>
    intro r e h
    rw [eligFiles] at h
    rcases List.mem_append.mp h with h | h
    · split at h
      · simp at h
      · split at h
        · simp at h
        · simp at h
          exact ⟨n, by simp [childNames], by rw [h]⟩
    · obtain ⟨m, hm, he⟩ := ih r e h
      exact ⟨m, by simp [childNames, hm], he⟩
  | consDir n c rest ihc ihr =>
    intro r e h
    rw [eligFiles] at h
    obtain ⟨m, hm, he⟩ := ihr r e h
    exact ⟨m, by simp [childNames, hm], he⟩

theorem visitChildren_shape (d : FSDir) :
    ∀ (r : List Seg) (e : Entry), e ∈ visitChildren r d →
      ∃ n t, n ∈ childNames d ∧ t ≠ [] ∧ e.1 = r ++ n :: t := by
  induction d with
  | nil => intro r e h; simp [visitChildren] at h
  | consFile n rest ih =>
    intro r e h
    rw [visitChildren] at h
    obtain ⟨m, t, hm, ht, he⟩ := ih r e h
    exact ⟨m, t, by simp [childNames, hm], ht, he⟩
  | consSymlink n tg b rest ih =>
    intro r e h
    rw [visitChildren] at h
    obtain ⟨m, t, hm, ht, he⟩ := ih r e h
    exact ⟨m, t, by simp [childNames, hm], ht, he⟩
  | consDir n c rest ihc ihr =>
    intro r e h
    rw [visitChildren] at h
    rcases List.mem_append.mp h with h | h
    · split at h
      · simp at h
      · rcases List.mem_append.mp h with h | h
        · obtain ⟨m, hm, he⟩ := eligFiles_shape c (r ++ [n]) e h
          refine ⟨n, [m], by simp [childNames], by simp, ?_⟩
          rw [he]
          simp
        · obtain ⟨m, t, _, ht, he⟩ := ihc (r ++ [n]) e h
          refine ⟨n, m :: t, by simp [childNames], by simp, ?_⟩
          rw [he]
          simp
    · obtain ⟨m, t, hm, ht, he⟩ := ihr r e h
      exact ⟨m, t, by simp [childNames, hm], ht, he⟩

theorem visit_shape (d : FSDir) (r : List Seg) (e : Entry) (h : e ∈ visit r d) :
    ∃ t, t ≠ [] ∧ e.1 = r ++ t := by
  rw [visit] at h
  rcases List.mem_append.mp h with h | h
  · have h' : e ∈ eligFiles r d := by
      split at h
      · simp at h
      · exact h
    obtain ⟨n, _, he⟩ := eligFiles_shape d r e h'
    exact ⟨[n], by simp, he⟩
  · obtain ⟨n, t, _, _, he⟩ := visitChildren_shape d r e h
    exact ⟨n :: t, by simp, he⟩

/-- Core pruning invariant: below a directory `r` all of whose non-empty
path prefixes are un-skipped, a skipped path `p` is never a strict ancestor
of a yielded entry, and never a prefix of a visited directory. -/
theorem skip_inv (d : FSDir) :
    ∀ (r p : List Seg), should_skip_dir p = true →
      (∀ q, q ≠ [] → q <+: r → should_skip_dir q = false) →
      (∀ e ∈ visitChildren r d, p <+: e.1 → p = e.1) ∧
      (∀ v ∈ visitedChildren r d, ¬ p <+: v) := by
  induction d with
  | nil =>
    intro r p _ _
    constructor
    · intro e he
      simp [visitChildren] at he
    · intro v hv
      simp [visitedChildren] at hv
  | consFile n rest ih =>
    intro r p hp hr
    rw [visitChildren, visitedChildren]
    exact ih r p hp hr
  | consSymlink n t b rest ih =>
    intro r p hp hr
    rw [visitChildren, visitedChildren]
    exact ih r p hp hr
  | consDir n c rest ihc ihr =>
    intro r p hp hr
    have hrec := ihr r p hp hr
    rw [visitChildren, visitedChildren]
    by_cases hskip : should_skip_dir (r ++ [n]) = true
    · simp only [if_pos hskip]
      constructor
      · intro e he hpe
        rcases List.mem_append.mp he with he | he
        · simp at he
        · exact hrec.1 e he hpe
      · intro v hv
        rcases List.mem_append.mp hv with hv | hv
        · simp at hv
        · exact hrec.2 v hv
    · have hskip' : should_skip_dir (r ++ [n]) = false := by
        simpa using hskip
      -- prefixes of `r ++ [n]` are un-skipped
      have hr' : ∀ q, q ≠ [] → q <+: r ++ [n] → should_skip_dir q = false := by
        intro q hq hqp
        rcases pfx_snoc hqp with h | rfl
        · exact hr q hq h
        · exact hskip'
      have hsub := ihc (r ++ [n]) p hp hr'
      simp only [if_neg hskip]
      constructor
      · intro e he hpe
        rcases List.mem_append.mp he with he | he
        · rcases List.mem_append.mp he with he | he
          · obtain ⟨m, _, he1⟩ := eligFiles_shape c (r ++ [n]) e he
            rw [he1] at hpe
            rcases pfx_snoc hpe with h | h
            · rcases pfx_snoc h with h | rfl
              · exact absurd (hr p (skip_ne_nil hp) h) (by simp [hp])
              · exact absurd hskip' (by simp [hp])
            · rw [he1, h]
          · exact hsub.1 e he hpe
        · exact hrec.1 e he hpe
      · intro v hv
        rcases List.mem_append.mp hv with hv | hv
        · rcases List.mem_cons.mp hv with rfl | hv
          · intro hpv
            rcases pfx_snoc hpv with h | rfl
            · exact absurd (hr p (skip_ne_nil hp) h) (by simp [hp])
            · exact absurd hskip' (by simp [hp])
          · exact hsub.2 v hv
        · exact hrec.2 v hv

/-- The walk never yields an entry strictly below a skipped path: any
skipped `p` that is a prefix of a yielded entry's relative path is the whole
path (the entry itself names `p`; `p` is then a file name, not a directory). -/
theorem visit_no_entry_under_skipped (d : FSDir) (r p : List Seg)
    (hp : should_skip_dir p = true)
    (hr : ∀ q, q ≠ [] → q <+: r → should_skip_dir q = false) :
    ∀ e ∈ visit r d, p <+: e.1 → p = e.1 := by
  intro e he hpe
  rw [visit] at he
  rcases List.mem_append.mp he with he | he
  · have he' : e ∈ eligFiles r d := by
      split at he
      · simp at he
      · exact he
    obtain ⟨n, _, he1⟩ := eligFiles_shape d r e he'
    rw [he1] at hpe
    rcases pfx_snoc hpe with h | h
    · exact absurd (hr p (skip_ne_nil hp) h) (by simp [hp])
    · rw [he1, h]
  · exact (skip_inv d r p hp hr).1 e he hpe

/-- Vacuous prefix condition at the source root. -/
theorem no_skip_at_root : ∀ q : List Seg, q ≠ [] → q <+: [] → should_skip_dir q = false := by
  intro q hq hqp
  exact absurd (pfx_of_nil hqp) hq

theorem findNode_mem (d : FSDir) :
    ∀ (m : Seg) (v : NodeView), findNode d m = some v → m ∈ childNames d := by
  induction d with
  | nil => intro m v h; simp [findNode] at h
  | consFile n rest ih =>
    intro m v h
    rw [findNode] at h
    rw [childNames]
    by_cases hnm : n = m
    · subst hnm
      exact List.mem_cons_self n _
    · rw [if_neg hnm] at h
      exact List.mem_cons_of_mem n (ih m v h)
  | consSymlink n t b rest ih =>
    intro m v h
    rw [findNode] at h
    rw [childNames]
    by_cases hnm : n = m
    · subst hnm
      exact List.mem_cons_self n _
    · rw [if_neg hnm] at h
      exact List.mem_cons_of_mem n (ih m v h)
  | consDir n c rest ihc ihr =>
    intro m v h
    rw [findNode] at h
    rw [childNames]
    by_cases hnm : n = m
    · subst hnm
      exact List.mem_cons_self n _
    · rw [if_neg hnm] at h
      exact List.mem_cons_of_mem n (ihr m v h)

theorem findNode_not_mem (d : FSDir) :
    ∀ (m : Seg), m ∉ childNames d → findNode d m = none := by
  induction d with
  | nil => intro m _; rw [findNode]
  | consFile n rest ih =>
    intro m hm
    simp [childNames] at hm
    rw [findNode, if_neg (by intro h; exact hm.1 h.symm)]
    exact ih m hm.2
  | consSymlink n t b rest ih =>
    intro m hm
    simp [childNames] at hm
    rw [findNode, if_neg (by intro h; exact hm.1 h.symm)]
    exact ih m hm.2
  | consDir n c rest ihc ihr =>
    intro m hm
    simp [childNames] at hm
    rw [findNode, if_neg (by intro h; exact hm.1 h.symm)]
    exact ihr m hm.2

/-- Deep well-formedness is inherited by subdirectory entries. -/
theorem wf_child (d : FSDir) :
    ∀ (cn : Seg) (c : FSDir), wfSub d = true → findNode d cn = some (.dirN c) →
      wfDir c = true := by
  induction d with
  | nil => intro cn c _ h; simp [findNode] at h
  | consFile n rest ih =>
    intro cn c hwf h
    rw [wfSub] at hwf
    rw [findNode] at h
    split at h
    · simp at h
    · exact ih cn c hwf h
  | consSymlink n t b rest ih =>
    intro cn c hwf h
    rw [wfSub] at hwf
    rw [findNode] at h
    split at h
    · simp at h
    · exact ih cn c hwf h
  | consDir n c' rest ihc ihr =>
    intro cn c hwf h
    rw [wfSub] at hwf
    simp only [Bool.and_eq_true] at hwf
    rw [findNode] at h
    split at h
    · simp at h
      rw [wfDir, ← h]
      simp [hwf.1.1, hwf.1.2]
    · exact ihr cn c hwf.2 h

/-- How many files a single directory listing yields at the relative path of
child `fname` (with kind satisfying `q`): exactly the contribution of the
entry named `fname`, when sibling names are distinct. -/
theorem countP_elig (d : FSDir) :
    ∀ (r : List Seg) (fname : Seg) (q : EKind → Bool), (childNames d).Nodup →
      (eligFiles r d).countP (entryPred (r ++ [fname]) q)
        = countRhs (findNode d fname) fname q := by
  induction d with
  | nil =>
    intro r fname q _
    simp [eligFiles, findNode, countRhs]
  | consFile n rest ih =>
    intro r fname q hnodup
    rw [childNames, List.nodup_cons] at hnodup
    rw [eligFiles, List.countP_append, findNode]
    by_cases hnm : n = fname
    · subst hnm
      rw [if_pos rfl]
      have h0 : (eligFiles r rest).countP (entryPred (r ++ [n]) q) = 0 := by
        rw [ih r n q hnodup.2, findNode_not_mem rest n hnodup.1, countRhs]
      rw [h0]
      by_cases hz : pySuffix n = zipSuffix
      · rw [if_pos hz]
        simp [countRhs, eligNode, hz]
      · rw [if_neg hz]
        simp [countRhs, eligNode, viewEK, entryPred, hz, List.countP_cons]
    · rw [if_neg hnm]
      have h0 : (List.countP (entryPred (r ++ [fname]) q)
          (if pySuffix n = zipSuffix then [] else [(r ++ [n], EKind.file)])) = 0 := by
        split
        · simp
        · simp [entryPred, List.countP_cons, hnm]
      rw [h0, ih r fname q hnodup.2]
      omega
  | consSymlink n t b rest ih =>
    intro r fname q hnodup
    rw [childNames, List.nodup_cons] at hnodup
    rw [eligFiles, List.countP_append, findNode]
    by_cases hnm : n = fname
    · subst hnm
      rw [if_pos rfl]
      have h0 : (eligFiles r rest).countP (entryPred (r ++ [n]) q) = 0 := by
        rw [ih r n q hnodup.2, findNode_not_mem rest n hnodup.1, countRhs]
      rw [h0]
      cases b with
      | true => simp [countRhs, eligNode]
      | false =>
        by_cases hz : pySuffix n = zipSuffix
        · rw [if_neg (by simp)]
          rw [if_pos hz]
          simp [countRhs, eligNode, hz]
        · rw [if_neg (by simp)]
          rw [if_neg hz]
          simp [countRhs, eligNode, viewEK, entryPred, hz, List.countP_cons]
    · rw [if_neg hnm]
      have h0 : (List.countP (entryPred (r ++ [fname]) q)
          (if b = true then []
           else if pySuffix n = zipSuffix then [] else [(r ++ [n], EKind.symlink t b)])) = 0 := by
        split
        · simp
        · split
          · simp
          · simp [entryPred, List.countP_cons, hnm]
      rw [h0, ih r fname q hnodup.2]
      omega
  | consDir n c rest ihc ihr =>
    intro r fname q hnodup
    rw [childNames, List.nodup_cons] at hnodup
    rw [eligFiles, findNode]
    by_cases hnm : n = fname
    · subst hnm
      rw [if_pos rfl]
      rw [ihr r n q hnodup.2, findNode_not_mem rest n hnodup.1]
      simp [countRhs, eligNode]
    · rw [if_neg hnm]
      exact ihr r fname q hnodup.2

/-- Scanning the children of a visited directory for entries at a path that
goes through the (kept, un-skipped) subdirectory `cn`: only the walk of `cn`
itself can contribute. -/
theorem countP_vc_scan (d : FSDir) :
    ∀ (r : List Seg) (cn : Seg) (tail : List Seg) (q : EKind → Bool) (c : FSDir),
      (childNames d).Nodup → findNode d cn = some (.dirN c) →
      should_skip_dir (r ++ [cn]) = false →
      (visitChildren r d).countP (entryPred (r ++ cn :: tail) q)
        = (visit (r ++ [cn]) c).countP (entryPred (r ++ cn :: tail) q) := by
  induction d with
  | nil =>
    intro r cn tail q c _ hfn _
    simp [findNode] at hfn
  | consFile n rest ih =>
    intro r cn tail q c hnodup hfn hskip
    rw [childNames, List.nodup_cons] at hnodup
    rw [findNode] at hfn
    rw [visitChildren]
    split at hfn
    · simp at hfn
    · exact ih r cn tail q c hnodup.2 hfn hskip
  | consSymlink n t b rest ih =>
    intro r cn tail q c hnodup hfn hskip
    rw [childNames, List.nodup_cons] at hnodup
    rw [findNode] at hfn
    rw [visitChildren]
    split at hfn
    · simp at hfn
    · exact ih r cn tail q c hnodup.2 hfn hskip
  | consDir n c' rest ihc ihr =>
    intro r cn tail q c hnodup hfn hskip
    rw [childNames, List.nodup_cons] at hnodup
    rw [findNode] at hfn
    rw [visitChildren, List.countP_append]
    by_cases hnm : n = cn
    · subst hnm
      rw [if_pos rfl] at hfn
      have hc : c' = c := by
        injection hfn with h
        injection h
      subst hc
      have hrest0 : (visitChildren r rest).countP (entryPred (r ++ n :: tail) q) = 0 := by
        rw [List.countP_eq_zero]
        intro e he
        obtain ⟨m, t', hm, _, he1⟩ := visitChildren_shape rest r e he
        simp only [entryPred, Bool.and_eq_true, decide_eq_true_eq]
        intro hcontra
        rw [he1] at hcontra
        have : m = n := by
          have h2 := (List.append_right_inj r).mp hcontra.1
          exact ((List.cons.injEq _ _ _ _).mp h2).1
        rw [this] at hm
        exact hnodup.1 hm
      rw [hrest0]
      rw [if_neg (by simp [hskip]), if_neg (by simp [hskip])]
      rw [visit, if_neg (by simp [hskip])]
      omega
    · rw [if_neg hnm] at hfn
      have hchunk0 : (List.countP (entryPred (r ++ cn :: tail) q)
          (if should_skip_dir (r ++ [n]) = true then []
           else (if should_skip_dir (r ++ [n]) = true then [] else eligFiles (r ++ [n]) c')
             ++ visitChildren (r ++ [n]) c')) = 0 := by
        rw [List.countP_eq_zero]
        intro e he
        have he' : e ∈ eligFiles (r ++ [n]) c' ∨ e ∈ visitChildren (r ++ [n]) c' := by
          split at he
          · simp at he
          · rcases List.mem_append.mp he with he | he
            · exact Or.inl he
            · exact Or.inr he
        have hshape : ∃ t', e.1 = r ++ n :: t' := by
          rcases he' with he' | he'
          · obtain ⟨m, _, he1⟩ := eligFiles_shape c' (r ++ [n]) e he'
            exact ⟨[m], by rw [he1]; simp⟩
          · obtain ⟨m, t', _, _, he1⟩ := visitChildren_shape c' (r ++ [n]) e he'
            exact ⟨m :: t', by rw [he1]; simp⟩
        obtain ⟨t', he1⟩ := hshape
        simp only [entryPred, Bool.and_eq_true, decide_eq_true_eq]
        intro hcontra
        rw [he1] at hcontra
        have : n = cn := by
          have h2 := (List.append_right_inj r).mp hcontra.1
          exact ((List.cons.injEq _ _ _ _).mp h2).1
        exact hnm this
      rw [hchunk0, ihr r cn tail q c hnodup.2 hfn hskip]
      omega

/-- Master counting lemma: in a deeply well-formed tree, the walk below an
un-skipped directory `r` yields, at the relative path `r ++ path ++ [fname]`,
exactly the contribution of the directory entry `fname` of the subdirectory
reached by `path` — one entry when it is an eligible file, none otherwise —
provided every non-empty prefix of `path` is un-skipped. -/
theorem countP_visit :
    ∀ (path : List Seg) (d : FSDir) (r : List Seg) (sub : FSDir) (fname : Seg)
      (q : EKind → Bool),
      wfDir d = true → dirAt d path = some sub →
      (∀ q', q' ≠ [] → q' <+: path → should_skip_dir (r ++ q') = false) →
      should_skip_dir r = false →
      (visit r d).countP (entryPred (r ++ (path ++ [fname])) q)
        = countRhs (findNode sub fname) fname q := by
  intro path
  induction path with
  | nil =>
    intro d r sub fname q hwf hat _ hskip
    rw [dirAt] at hat
    injection hat with hat
    subst hat
    rw [visit, List.countP_append, if_neg (by simp [hskip])]
    have hvc0 : (visitChildren r d).countP (entryPred (r ++ ([] ++ [fname])) q) = 0 := by
      rw [List.countP_eq_zero]
      intro e he
      obtain ⟨m, t', _, ht', he1⟩ := visitChildren_shape d r e he
      simp only [entryPred, Bool.and_eq_true, decide_eq_true_eq]
      intro hcontra
      rw [he1] at hcontra
      have h2 := (List.append_right_inj r).mp hcontra.1
      exact ht' (((List.cons.injEq _ _ _ _).mp h2).2)
    rw [hvc0]
    have := countP_elig d r fname q (by
      rw [wfDir, Bool.and_eq_true] at hwf
      exact of_decide_eq_true hwf.1)
    simpa using this
  | cons cn rest ih =>
    intro d r sub fname q hwf hat hpr hskip
    rw [dirAt] at hat
    cases hfn : findNode d cn with
    | none => rw [hfn] at hat; simp at hat
    | some v =>
      cases v with
      | fileN => rw [hfn] at hat; simp at hat
      | symlinkN t b => rw [hfn] at hat; simp at hat
      | dirN c =>
        rw [hfn] at hat
        simp only at hat
        have hskipcn : should_skip_dir (r ++ [cn]) = false := by
          have := hpr [cn] (by simp) ⟨rest, rfl⟩
          exact this
        have hwf' : wfDir c = true := by
          rw [wfDir, Bool.and_eq_true] at hwf
          exact wf_child d cn c hwf.2 hfn
        rw [visit, List.countP_append, if_neg (by simp [hskip])]
        have helig0 : (eligFiles r d).countP
            (entryPred (r ++ (cn :: rest ++ [fname])) q) = 0 := by
          rw [List.countP_eq_zero]
          intro e he
          obtain ⟨m, _, he1⟩ := eligFiles_shape d r e he
          simp only [entryPred, Bool.and_eq_true, decide_eq_true_eq]
          intro hcontra
          rw [he1] at hcontra
          have h2 := (List.append_right_inj r).mp hcontra.1
          have := ((List.cons.injEq _ _ _ _).mp h2).2
          exact absurd this.symm (by simp)
        rw [helig0]
        have hnodup : (childNames d).Nodup := by
          rw [wfDir, Bool.and_eq_true] at hwf
          exact of_decide_eq_true hwf.1
        have hscan := countP_vc_scan d r cn (rest ++ [fname]) q c hnodup hfn hskipcn
        have hconv1 : r ++ (cn :: rest ++ [fname]) = r ++ cn :: (rest ++ [fname]) := by
          simp
        rw [hconv1, hscan]
        have hpr' : ∀ q', q' ≠ [] → q' <+: rest →
            should_skip_dir ((r ++ [cn]) ++ q') = false := by
          intro q' hq' hq'p
          have hconv : (r ++ [cn]) ++ q' = r ++ (cn :: q') := by simp
          rw [hconv]
          exact hpr (cn :: q') (by simp) (pfx_cons cn hq'p)
        have hih := ih c (r ++ [cn]) sub fname q hwf' hat hpr' hskipcn
        have hconv2 : (r ++ [cn]) ++ (rest ++ [fname]) = r ++ cn :: (rest ++ [fname]) := by
          simp
        rw [hconv2] at hih
        rw [hih]
        omega

/-- Shared form of the exclusion consequence of a skipped path: it is a
prefix of no visited directory, and only an entry naming the path itself can
have it as a prefix. -/
theorem skipped_path_excluded (p : List Seg) (hp : should_skip_dir p = true)
    (srcRoot : PPath) (d : FSDir) :
    (∀ v ∈ visitedDirs d, ¬ p <+: v) ∧
    (∀ e ∈ iter_files srcRoot d, p <+: e.1 → p = e.1) := by
  constructor
  · intro v hv
    rw [visitedDirs] at hv
    rcases List.mem_cons.mp hv with rfl | hv
    · intro hpv
      exact skip_ne_nil hp (pfx_of_nil hpv)
    · exact (skip_inv d [] p hp no_skip_at_root).2 v hv
  · intro e he
    exact visit_no_entry_under_skipped d [] p hp no_skip_at_root e he

/-- Existence of a walk entry for a directory entry of a visited directory,
as governed by the `.zip` suffix test. -/
theorem entry_exists_iff (srcRoot : PPath) (d : FSDir) (path : List Seg) (sub : FSDir)
    (fname : Seg) (v : NodeView)
    (hwf : wfDir d = true) (hat : dirAt d path = some sub)
    (hfn : findNode sub fname = some v) (hfile : isFileLike v = true)
    (hpr : ∀ q', q' ≠ [] → q' <+: path → should_skip_dir q' = false) :
    (∃ e ∈ iter_files srcRoot d, e.1 = path ++ [fname]) ↔ pySuffix fname ≠ zipSuffix := by
  have hpr' : ∀ q', q' ≠ [] → q' <+: path → should_skip_dir (([] : List Seg) ++ q') = false := by
    intro q' h1 h2
    simpa using hpr q' h1 h2
  have hcount := countP_visit path d [] sub fname (fun _ => true) hwf hat hpr' shouldSkip_nil
  rw [hfn] at hcount
  have hmem : (∃ e ∈ iter_files srcRoot d, e.1 = path ++ [fname]) ↔
      0 < (visit [] d).countP (entryPred (([] : List Seg) ++ (path ++ [fname])) (fun _ => true)) := by
    rw [List.countP_pos_iff]
    constructor
    · rintro ⟨e, he, he1⟩
      exact ⟨e, he, by simp [entryPred, he1]⟩
    · rintro ⟨e, he, he1⟩
      simp only [entryPred, Bool.and_eq_true, decide_eq_true_eq] at he1
      exact ⟨e, he, by simpa using he1.1⟩
  rw [hmem, hcount]
  cases v with
  | fileN =>
    rw [countRhs]
    by_cases hz : pySuffix fname = zipSuffix
    · simp [eligNode, hz]
    · simp [eligNode, hz]
  | symlinkN t b =>
    rw [isFileLike] at hfile
    rw [countRhs]
    by_cases hz : pySuffix fname = zipSuffix
    · simp [eligNode, hz]
    · simp [eligNode, hz, hfile]
  | dirN c =>
    rw [isFileLike] at hfile
    exact absurd hfile (by simp)

/-- `joinSegs` distributes over appending two non-empty segment lists. -/
theorem joinSegs_append (l1 l2 : List Seg) (h1 : l1 ≠ []) (h2 : l2 ≠ []) :
    joinSegs (l1 ++ l2) = joinSegs l1 ++ '/' :: joinSegs l2 := by
  induction l1 with
  | nil => exact absurd rfl h1
  | cons s rest ih =>
    cases rest with
    | nil =>
      cases l2 with
      | nil => exact absurd rfl h2
      | cons t ts => simp [joinSegs]
    | cons s2 rest2 =>
      have hmid : (s2 :: rest2) ++ l2 = s2 :: (rest2 ++ l2) := by simp
      calc joinSegs ((s :: s2 :: rest2) ++ l2)
          = s ++ '/' :: joinSegs ((s2 :: rest2) ++ l2) := by
            rw [List.cons_append, hmid, joinSegs]
        _ = s ++ '/' :: (joinSegs (s2 :: rest2) ++ '/' :: joinSegs l2) := by
            rw [ih (by simp)]
        _ = joinSegs (s :: s2 :: rest2) ++ '/' :: joinSegs l2 := by
            rw [joinSegs]
            simp

/-- `str` of a parsed path with extra relative components appended: the
rendered base, a slash, then the joined extra components. -/
theorem renderP_append (root : Nat) (ps rel : List Seg) (hps : ps ≠ []) (hrel : rel ≠ []) :
    renderP ⟨root, ps ++ rel⟩ = renderP ⟨root, ps⟩ ++ '/' :: joinSegs rel := by
  rw [renderP, renderP]
  by_cases hr : root = 0
  · simp only [hr, if_pos rfl]
    rw [if_neg (fun hcontra => hps (List.append_eq_nil.mp hcontra).1), if_neg hps]
    exact joinSegs_append ps rel hps hrel
  · rw [if_neg hr, if_neg hr]
    rw [joinSegs_append ps rel hps hrel]
    simp

/-- `pySuffix` of a name is a suffix of the name. -/
theorem pySuffix_sfx (n : List Char) : pySuffix n <:+ n := by
  rw [pySuffix]
  cases rfindDot n with
  | none => exact List.nil_suffix
  | some i =>
    show (if 0 < i ∧ i < n.length - 1 then n.drop i else []) <:+ n
    by_cases h : 0 < i ∧ i < n.length - 1
    · rw [if_pos h]
      exact List.drop_suffix i n
    · rw [if_neg h]
      exact List.nil_suffix

theorem sfx_eq_of_len {α : Type} {s1 s2 l : List α}
    (h1 : s1 <:+ l) (h2 : s2 <:+ l) (hl : s1.length = s2.length) : s1 = s2 := by
  obtain ⟨t1, ht1⟩ := h1
  obtain ⟨t2, ht2⟩ := h2
  exact (List.append_inj' (ht1.trans ht2.symm) hl).2

/-- A name ending in the upper-case `".ZIP"` never has suffix `".zip"`:
the comparison in `iter_files` is exact and case-sensitive. -/
theorem pySuffix_ne_zip_of_ZIP (n : List Char) (h : ".ZIP".toList <:+ n) :
    pySuffix n ≠ zipSuffix := by
  intro heq
  have hs : zipSuffix <:+ n := heq ▸ pySuffix_sfx n
  have : zipSuffix = ".ZIP".toList := sfx_eq_of_len hs h (by decide)
  exact absurd this (by decide)

/-! ### Claim theorems -/

/-- C1: for every source tree and every directory path `p` under the source
root on which the skip predicate holds, no descendant of `p` is visited by
the walk (`p` is a prefix of no directory the walk recurses into — in
particular `p` itself is not visited), and the walk yields no entry whose
source-relative path lies strictly under `p` (a skipped `p` that is a prefix
of an entry's path can only be the entry's own path, i.e. a file that merely
bears a skipped name): pruning is applied to the directory list before
descending. -/
theorem c1_pruned_before_descent (srcRoot : PPath) (d : FSDir) (p : List Seg)
    (hp : should_skip_dir p = true) :
    (∀ v ∈ visitedDirs d, ¬ p <+: v) ∧
    (∀ e ∈ iter_files srcRoot d, p <+: e.1 → p = e.1) :=
  skipped_path_excluded p hp srcRoot d

/-- Witness for C1: in a tree with a `.git` directory containing a file, the
skipped path `.git` is a prefix of no visited directory and of no yielded
entry path. -/
theorem c1_pruned_before_descent_witness :
    (∀ v ∈ visitedDirs (FSDir.consDir ".git".toList (FSDir.consFile "x.txt".toList .nil)
        (FSDir.consFile "a.txt".toList .nil)), ¬ [".git".toList] <+: v) ∧
    (∀ e ∈ iter_files ⟨1, ["repo".toList]⟩
        (FSDir.consDir ".git".toList (FSDir.consFile "x.txt".toList .nil)
          (FSDir.consFile "a.txt".toList .nil)),
      [".git".toList] <+: e.1 → [".git".toList] = e.1) :=
  c1_pruned_before_descent ⟨1, ["repo".toList]⟩
    (FSDir.consDir ".git".toList (FSDir.consFile "x.txt".toList .nil)
      (FSDir.consFile "a.txt".toList .nil))
    [".git".toList] (by decide)

/-- C2: the skip predicate holds exactly when the directory's own name (the
last segment of its relative path; the empty string for the root `.`) is one
of the ignored directory names, or the `as_posix` string of the relative
path starts with the `as_posix` string of one of the ignored path prefixes. -/
theorem c2_skip_predicate_spec (p : List Seg) :
    should_skip_dir p = true ↔
      (pathName p ∈ IGNORED_DIRS ∨
       ∃ pre ∈ IGNORED_PATH_PREFIXES, asPosix pre <+: asPosix p) := by
  rw [should_skip_dir]
  by_cases h : pathName p ∈ IGNORED_DIRS
  · simp [h]
  · rw [if_neg h, List.any_eq_true]
    constructor
    · rintro ⟨pre, hpre, hp⟩
      exact Or.inr ⟨pre, hpre, (isPrefixOf_iff_pfx _ _).mp hp⟩
    · rintro (hc | ⟨pre, hpre, hp⟩)
      · exact absurd hc h
      · exact ⟨pre, hpre, (isPrefixOf_iff_pfx _ _).mpr hp⟩

/-- C9: prefix matching in `should_skip_dir` is plain string-prefix
comparison, not path-component comparison: any directory whose `as_posix`
string merely starts with the string of an ignored prefix — such as
`node_modules/.cache-extra` against `node_modules/.cache` — is skipped, and
its entire subtree is excluded from the walk (no visited directory and no
yielded entry strictly below it). -/
theorem c9_string_prefix_matching (p pre : List Seg)
    (hpre : pre ∈ IGNORED_PATH_PREFIXES)
    (hpfx : (asPosix pre).isPrefixOf (asPosix p) = true) :
    should_skip_dir p = true ∧
    ∀ (srcRoot : PPath) (d : FSDir),
      (∀ v ∈ visitedDirs d, ¬ p <+: v) ∧
      (∀ e ∈ iter_files srcRoot d, p <+: e.1 → p = e.1) := by
  have hskip : should_skip_dir p = true := by
    rw [should_skip_dir]
    by_cases h : pathName p ∈ IGNORED_DIRS
    · rw [if_pos h]
    · rw [if_neg h, List.any_eq_true]
      exact ⟨pre, hpre, hpfx⟩
  exact ⟨hskip, fun srcRoot d => skipped_path_excluded p hskip srcRoot d⟩

/-- Witness for C9: `node_modules/.cache-extra` extends the string of the
prefix `node_modules/.cache` without lying under it, and is skipped. -/
theorem c9_string_prefix_matching_witness :
    should_skip_dir ["node_modules".toList, ".cache-extra".toList] = true :=
  (c9_string_prefix_matching ["node_modules".toList, ".cache-extra".toList]
    (parseP "node_modules/.cache".toList).parts (by decide) (by decide)).1

/-- C3 counterexample: the claim fails for a symlink whose target is a
directory.  In a source tree whose root holds a single symlink `link`
pointing at a directory, the symlink lies in a non-skipped directory (the
un-skipped root) and its name's suffix is not `.zip`, yet the produced
archive is empty: `os.walk` lists the symlink among the subdirectories
(`entry.is_dir()` follows links) but, with `followlinks=False`, neither
recurses into it nor reports it in `files`, so it yields no entry at all
instead of exactly one. -/
theorem c3_counterexample :
    findNode (FSDir.consSymlink "link".toList "sub".toList true .nil) "link".toList
      = some (NodeView.symlinkN "sub".toList true) ∧
    pySuffix "link".toList ≠ zipSuffix ∧
    should_skip_dir [] = false ∧
    packageEntries "sidflow-release".toList
      (FSDir.consSymlink "link".toList "sub".toList true .nil) = [] := by
  refine ⟨by decide, by decide, by decide, by decide⟩

/-- C3 (amended): in a well-formed source tree, every regular file — and
every symlink that does not point at a directory — lying in a visited
(non-skipped, with no skipped ancestor) directory whose name's suffix is not
`.zip` yields exactly one walk entry, and the corresponding archive entry,
placed at `<archive_name>/<relative path>`, is in the produced archive.
(`eligNode` packages exactly these conditions: file-likeness and the suffix
test.) -/
theorem c3_exactly_one_entry (srcRoot : PPath) (an : List Char) (d : FSDir)
    (path : List Seg) (sub : FSDir) (fname : Seg) (v : NodeView)
    (hwf : wfDir d = true) (hat : dirAt d path = some sub)
    (hfn : findNode sub fname = some v) (helig : eligNode fname v = true)
    (hpr : ∀ q', q' ≠ [] → q' <+: path → should_skip_dir q' = false) :
    (iter_files srcRoot d).countP (entryPred (path ++ [fname]) (fun _ => true)) = 1 ∧
    add_file_to_zip (viewEK v) (arcPathOfEntry an (path ++ [fname]))
      ∈ packageEntries an d := by
  have hpr' : ∀ q', q' ≠ [] → q' <+: path →
      should_skip_dir (([] : List Seg) ++ q') = false := by
    intro q' h1 h2
    simpa using hpr q' h1 h2
  have hnil : (([] : List Seg) ++ (path ++ [fname])) = path ++ [fname] := by simp
  constructor
  · have h1 := countP_visit path d [] sub fname (fun _ => true) hwf hat hpr' shouldSkip_nil
    rw [hfn] at h1
    rw [hnil] at h1
    rw [iter_files, h1, countRhs]
    simp [helig]
  · have h2 := countP_visit path d [] sub fname (fun k => decide (k = viewEK v))
      hwf hat hpr' shouldSkip_nil
    rw [hfn] at h2
    have hc2 : countRhs (some v) fname (fun k => decide (k = viewEK v)) = 1 := by
      rw [countRhs]
      simp [helig]
    rw [hc2] at h2
    have hpos : 0 < (visit [] d).countP
        (entryPred (([] : List Seg) ++ (path ++ [fname]))
          (fun k => decide (k = viewEK v))) := by
      rw [h2]
      omega
    obtain ⟨e, he, hpe⟩ := List.countP_pos_iff.mp hpos
    simp only [entryPred, Bool.and_eq_true, decide_eq_true_eq] at hpe
    rw [packageEntries]
    refine List.mem_map.mpr ⟨e, he, ?_⟩
    rw [hnil] at hpe
    rw [hpe.1, hpe.2]

/-- Witness for the amended C3: a regular file `a.txt` at the root of a
one-file tree yields exactly one entry, archived under the top-level
folder. -/
theorem c3_exactly_one_entry_witness :
    (iter_files ⟨1, ["repo".toList]⟩ (FSDir.consFile "a.txt".toList .nil)).countP
      (entryPred (["a.txt".toList]) (fun _ => true)) = 1 ∧
    add_file_to_zip (viewEK .fileN)
      (arcPathOfEntry "sidflow-release".toList (["a.txt".toList]))
      ∈ packageEntries "sidflow-release".toList (FSDir.consFile "a.txt".toList .nil) :=
  c3_exactly_one_entry ⟨1, ["repo".toList]⟩ "sidflow-release".toList
    (FSDir.consFile "a.txt".toList .nil) [] (FSDir.consFile "a.txt".toList .nil)
    "a.txt".toList .fileN (by decide) (by decide) (by decide) (by decide)
    no_skip_at_root

/-- C6: a file (an entry `os.walk` lists in `files`) lying in a visited
directory is included in the archive exactly when its name's
`PurePath.suffix` is not the literal `".zip"` — the extension of the zip
archive the script produces. -/
theorem c6_zip_suffix_eligibility (srcRoot : PPath) (d : FSDir) (path : List Seg)
    (sub : FSDir) (fname : Seg) (v : NodeView)
    (hwf : wfDir d = true) (hat : dirAt d path = some sub)
    (hfn : findNode sub fname = some v) (hfile : isFileLike v = true)
    (hpr : ∀ q', q' ≠ [] → q' <+: path → should_skip_dir q' = false) :
    (∃ e ∈ iter_files srcRoot d, e.1 = path ++ [fname]) ↔
      pySuffix fname ≠ zipSuffix :=
  entry_exists_iff srcRoot d path sub fname v hwf hat hfn hfile hpr

/-- Witness for C6: a file named `release.zip` at the root of a two-file
tree is excluded from the produced archive. -/
theorem c6_zip_suffix_eligibility_witness :
    ¬ (∃ e ∈ iter_files ⟨1, ["repo".toList]⟩
        (FSDir.consFile "release.zip".toList (FSDir.consFile "ok.txt".toList .nil)),
        e.1 = [] ++ ["release.zip".toList]) := fun h =>
  (c6_zip_suffix_eligibility ⟨1, ["repo".toList]⟩
    (FSDir.consFile "release.zip".toList (FSDir.consFile "ok.txt".toList .nil))
    [] (FSDir.consFile "release.zip".toList (FSDir.consFile "ok.txt".toList .nil))
    "release.zip".toList .fileN (by decide) (by decide) (by decide) (by decide)
    no_skip_at_root).mp h (by decide)

/-- C10: the zip-artifact exclusion compares `PurePath.suffix` to `".zip"`
exactly and case-sensitively: a file named exactly `.zip` (whose suffix is
the empty string, since its only dot is leading) and a file whose name ends
in `.ZIP` both fail the equality and are included in the archive whenever
they lie in a visited directory of a well-formed tree. -/
theorem c10_case_sensitive_zip_check (srcRoot : PPath) (d : FSDir) (path : List Seg)
    (sub : FSDir) (v1 : NodeView) (n2 : Seg) (v2 : NodeView)
    (hwf : wfDir d = true) (hat : dirAt d path = some sub)
    (h1 : findNode sub ".zip".toList = some v1) (hf1 : isFileLike v1 = true)
    (h2 : findNode sub n2 = some v2) (hf2 : isFileLike v2 = true)
    (hZ : ".ZIP".toList <:+ n2)
    (hpr : ∀ q', q' ≠ [] → q' <+: path → should_skip_dir q' = false) :
    pySuffix ".zip".toList = [] ∧
    (∃ e ∈ iter_files srcRoot d, e.1 = path ++ [".zip".toList]) ∧
    (∃ e ∈ iter_files srcRoot d, e.1 = path ++ [n2]) := by
  refine ⟨by decide, ?_, ?_⟩
  · exact (entry_exists_iff srcRoot d path sub ".zip".toList v1 hwf hat h1 hf1 hpr).mpr
      (by decide)
  · exact (entry_exists_iff srcRoot d path sub n2 v2 hwf hat h2 hf2 hpr).mpr
      (pySuffix_ne_zip_of_ZIP n2 hZ)

/-- Witness for C10: files named `.zip` and `x.ZIP` at the root are both
included. -/
theorem c10_case_sensitive_zip_check_witness :
    pySuffix ".zip".toList = [] ∧
    (∃ e ∈ iter_files ⟨1, ["repo".toList]⟩
        (FSDir.consFile ".zip".toList (FSDir.consFile "x.ZIP".toList .nil)),
      e.1 = [] ++ [".zip".toList]) ∧
    (∃ e ∈ iter_files ⟨1, ["repo".toList]⟩
        (FSDir.consFile ".zip".toList (FSDir.consFile "x.ZIP".toList .nil)),
      e.1 = [] ++ ["x.ZIP".toList]) :=
  c10_case_sensitive_zip_check ⟨1, ["repo".toList]⟩
    (FSDir.consFile ".zip".toList (FSDir.consFile "x.ZIP".toList .nil)) []
    (FSDir.consFile ".zip".toList (FSDir.consFile "x.ZIP".toList .nil))
    .fileN "x.ZIP".toList .fileN (by decide) (by decide) (by decide) (by decide)
    (by decide) (by decide) ⟨"x".toList, by decide⟩ no_skip_at_root

/-- C4: every symlink entry of the produced archive carries
`create_system = 3` (Unix) and `external_attr = 0o120755 << 16`, and its
stored content is exactly the target string of a symlink yielded by the walk
at the corresponding source-relative path — the link is recorded, never
dereferenced. -/
theorem c4_symlink_entry_metadata (an : List Char) (srcRoot : PPath) (d : FSDir)
    (z : ZipEntry) (hz : z ∈ packageEntries an d) :
    ∀ p c cs ea, z = ZipEntry.symlinkEntry p c cs ea →
      cs = 3 ∧ ea = 0o120755 <<< 16 ∧
      ∃ rel b, (rel, EKind.symlink c b) ∈ iter_files srcRoot d ∧
        p = arcPathOfEntry an rel := by
  intro p c cs ea heq
  rw [packageEntries] at hz
  obtain ⟨e, he, hmap⟩ := List.mem_map.mp hz
  subst heq
  cases hek : e.2 with
  | file =>
    rw [hek] at hmap
    simp [add_file_to_zip] at hmap
  | symlink t b =>
    rw [hek] at hmap
    simp only [add_file_to_zip, ZipEntry.symlinkEntry.injEq] at hmap
    obtain ⟨hp, hc, hcs, hea⟩ := hmap
    refine ⟨hcs.symm, hea.symm, e.1, b, ?_, hp.symm⟩
    rw [iter_files]
    have hrepack : (e.1, EKind.symlink c b) = e := by
      rw [← hc, ← hek]
    rw [hrepack]
    exact he

/-- Witness for C4: the single symlink of a one-entry tree produces a
symlink-mode archive entry whose content is the link target. -/
theorem c4_symlink_entry_metadata_witness :
    3 = 3 ∧ 0o120755 <<< 16 = 0o120755 <<< 16 ∧
    ∃ rel b, (rel, EKind.symlink "target.txt".toList b)
        ∈ iter_files ⟨1, ["repo".toList]⟩
          (FSDir.consSymlink "ln".toList "target.txt".toList false .nil) ∧
      "sidflow-release/ln".toList = arcPathOfEntry "sidflow-release".toList rel :=
  c4_symlink_entry_metadata "sidflow-release".toList ⟨1, ["repo".toList]⟩
    (FSDir.consSymlink "ln".toList "target.txt".toList false .nil)
    (ZipEntry.symlinkEntry "sidflow-release/ln".toList "target.txt".toList 3
      (0o120755 <<< 16))
    (by decide) "sidflow-release/ln".toList "target.txt".toList 3 (0o120755 <<< 16) rfl

/-- C5 counterexample: with archive name `"."` the claim fails.
`PurePosixPath(".")` normalises to the empty relative path, so the single
file `a.txt` is archived at internal path `a.txt`, not at
`<archive_name>/<relative path>` = `./a.txt`. -/
theorem c5_counterexample :
    packageEntries ".".toList (FSDir.consFile "a.txt".toList .nil)
      = [ZipEntry.fileEntry "a.txt".toList ZIP_DEFLATED] ∧
    "a.txt".toList ≠ ".".toList ++ '/' :: joinSegs ["a.txt".toList] := by
  refine ⟨by decide, by decide⟩

/-- C5 (amended): for every archive name that is non-empty and canonical —
its string equals the string of the `PurePosixPath` built from it, and that
path has at least one component, which holds for every ordinary folder name —
each walk entry's internal archive path is exactly the archive name, a
forward slash, and the `/`-joined source-relative path; in particular it
starts with `<archive_name>/`.  Archive names normalising differently
(`""`, `"."`, names with redundant slashes) instead yield the normalised
join, as the counterexample shows. -/
theorem c5_entry_path_layout (an : List Char) (srcRoot : PPath) (d : FSDir)
    (hcanon : renderP (parseP an) = an) (hne : (parseP an).parts ≠ []) :
    ∀ e ∈ iter_files srcRoot d,
      arcPathOfEntry an e.1 = an ++ '/' :: joinSegs e.1 ∧
      (an ++ ['/']) <+: arcPathOfEntry an e.1 := by
  intro e he
  rw [iter_files] at he
  obtain ⟨t, ht, he1⟩ := visit_shape d [] e he
  have hrel : e.1 ≠ [] := by
    rw [he1]
    simpa using ht
  have hj : joinP (parseP an) ⟨0, e.1⟩
      = ⟨(parseP an).rootSlashes, (parseP an).parts ++ e.1⟩ := rfl
  have hmain : arcPathOfEntry an e.1 = an ++ '/' :: joinSegs e.1 := by
    rw [arcPathOfEntry, hj, renderP_append _ _ _ hne hrel]
    have heta : (⟨(parseP an).rootSlashes, (parseP an).parts⟩ : PPath) = parseP an := rfl
    rw [heta, hcanon]
  exact ⟨hmain, hmain ▸ ⟨joinSegs e.1, by simp⟩⟩

/-- Witness for the amended C5: with the default archive name, the file
`a.txt` is archived at `sidflow-release/a.txt`. -/
theorem c5_entry_path_layout_witness :
    arcPathOfEntry "sidflow-release".toList ["a.txt".toList]
      = "sidflow-release".toList ++ '/' :: joinSegs ["a.txt".toList] :=
  (c5_entry_path_layout "sidflow-release".toList ⟨1, ["repo".toList]⟩
    (FSDir.consFile "a.txt".toList .nil) (by decide) (by decide)
    (["a.txt".toList], EKind.file) (by decide)).1

/-- C7: `main` returns exit code 0 — printing the success line with the
resolved zip path to stdout and nothing to stderr — exactly when the source
argument is present, the (resolved) source is a directory, and packaging
raises no exception; every failing run returns exit code 1 with an empty
stdout and a single `Error: <message>` line on stderr, where a missing
source yields `Source directory not found: <path>` (mentioning the resolved
source path) and a non-directory source yields
`Source path is not a directory: <path>`. -/
theorem c7_exit_codes (sa : Option (List Char)) (aa : List Char)
    (za : Option (List Char)) (fs : SrcState) (we : Option (List Char)) :
    ((mainRun sa aa za fs we).exitCode = 0 ↔
      (sa ≠ none ∧ (∃ d, fs = SrcState.isDir d) ∧ we = none)) ∧
    (∀ s, sa = some s → (∃ d, fs = SrcState.isDir d) → we = none →
      mainRun sa aa za fs we
        = ⟨0, ["Successfully packaged release to ".toList
              ++ renderP (resolvedZip (parseP s) (effArchive aa) za)], []⟩) ∧
    ((mainRun sa aa za fs we).exitCode ≠ 0 →
      (mainRun sa aa za fs we).exitCode = 1 ∧
      (mainRun sa aa za fs we).stdoutLines = [] ∧
      ∃ m, (mainRun sa aa za fs we).stderrLines = ["Error: ".toList ++ m]) ∧
    (∀ s, sa = some s → fs = SrcState.missing →
      mainRun sa aa za fs we
        = ⟨1, [], ["Error: Source directory not found: ".toList
              ++ renderP (parseP s)]⟩) ∧
    (∀ s, sa = some s → fs = SrcState.notDir →
      mainRun sa aa za fs we
        = ⟨1, [], ["Error: Source path is not a directory: ".toList
              ++ renderP (parseP s)]⟩) := by
  have hmsg1 : ∀ x : List Char,
      "Error: ".toList ++ ("Source directory not found: ".toList ++ x)
        = "Error: Source directory not found: ".toList ++ x := by
    intro x
    rw [← List.append_assoc]
    rfl
  have hmsg2 : ∀ x : List Char,
      "Error: ".toList ++ ("Source path is not a directory: ".toList ++ x)
        = "Error: Source path is not a directory: ".toList ++ x := by
    intro x
    rw [← List.append_assoc]
    rfl
  cases sa with
  | none =>
    refine ⟨by simp [mainRun], ?_, ?_, ?_, ?_⟩
    · intro s hs
      exact absurd hs (by simp)
    · intro _
      exact ⟨rfl, rfl, ⟨"SRC_DIR (--src-dir) is required".toList, by rfl⟩⟩
    · intro s hs
      exact absurd hs (by simp)
    · intro s hs
      exact absurd hs (by simp)
  | some s0 =>
    cases fs with
    | missing =>
      refine ⟨by simp [mainRun, package_release], ?_, ?_, ?_, ?_⟩
      · intro s _ hd
        obtain ⟨d, hd⟩ := hd
        exact absurd hd (by simp)
      · intro _
        exact ⟨rfl, rfl,
          ⟨"Source directory not found: ".toList ++ renderP (parseP s0), rfl⟩⟩
      · intro s hs _
        injection hs with hs
        subst hs
        show (⟨1, [], ["Error: ".toList
            ++ ("Source directory not found: ".toList ++ renderP (parseP s0))]⟩ : CLIResult) = _
        rw [hmsg1]
      · intro s _ hd
        exact absurd hd (by simp)
    | notDir =>
      refine ⟨by simp [mainRun, package_release], ?_, ?_, ?_, ?_⟩
      · intro s _ hd
        obtain ⟨d, hd⟩ := hd
        exact absurd hd (by simp)
      · intro _
        exact ⟨rfl, rfl,
          ⟨"Source path is not a directory: ".toList ++ renderP (parseP s0), rfl⟩⟩
      · intro s _ hd
        exact absurd hd (by simp)
      · intro s hs _
        injection hs with hs
        subst hs
        show (⟨1, [], ["Error: ".toList
            ++ ("Source path is not a directory: ".toList ++ renderP (parseP s0))]⟩ : CLIResult) = _
        rw [hmsg2]
    | isDir d =>
      cases we with
      | none =>
        refine ⟨by simp [mainRun, package_release], ?_, ?_, ?_, ?_⟩
        · intro s hs _ _
          injection hs with hs
          subst hs
          rfl
        · intro h
          exact absurd rfl h
        · intro s _ hd
          exact absurd hd (by simp)
        · intro s _ hd
          exact absurd hd (by simp)
      | some m =>
        refine ⟨by simp [mainRun, package_release], ?_, ?_, ?_, ?_⟩
        · intro s _ _ hwe
          exact absurd hwe (by simp)
        · intro _
          exact ⟨rfl, rfl, ⟨m, rfl⟩⟩
        · intro s _ hd
          exact absurd hd (by simp)
        · intro s _ hd
          exact absurd hd (by simp)

/-- Witness for C7: a run with a missing source directory exits with code 1
and the `Error: Source directory not found: /src` line on stderr. -/
theorem c7_exit_codes_witness :
    mainRun (some "/src".toList) [] none SrcState.missing none
      = ⟨1, [], ["Error: Source directory not found: /src".toList]⟩ :=
  ((c7_exit_codes (some "/src".toList) [] none SrcState.missing none).2.2.2.1
    "/src".toList rfl rfl).trans (by decide)

/-- C8 counterexample: the claim fails.  For a source root whose own name is
`.git` — an ignored directory name — the walk still yields the root's files:
`Path(root).relative_to(src_root)` maps the root to `.`, whose
`PurePosixPath` name is the empty string, so the root's actual basename
never reaches `should_skip_dir` and the archive is not empty. -/
theorem c8_counterexample :
    pathName (PPath.parts ⟨1, ["repo".toList, ".git".toList]⟩) ∈ IGNORED_DIRS ∧
    iter_files ⟨1, ["repo".toList, ".git".toList]⟩ (FSDir.consFile "a.txt".toList .nil)
      = [(["a.txt".toList], EKind.file)] := by
  refine ⟨by decide, by decide⟩

/-- C8 (amended): the skip predicate is evaluated for every directory
encountered, including the source root itself, but the root is tested with
relative path `.` (the empty segment list), which is never skipped — its
name is the empty string and `.` extends no ignored prefix.  Consequently
the walk's output is entirely independent of the source root's absolute path
(its basename included): a root named like an ignored directory is walked
and archived like any other. -/
theorem c8_root_never_skipped (r1 r2 : PPath) (d : FSDir) :
    iter_files r1 d = iter_files r2 d ∧
    should_skip_dir [] = false ∧
    iter_files r1 d = eligFiles [] d ++ visitChildren [] d := by
  refine ⟨rfl, shouldSkip_nil, ?_⟩
  rw [iter_files, visit, if_neg (by simp [shouldSkip_nil])]

end SidFlow
